import Mathlib

/-
Verification of the randomized chunked utterance source
(Source/Readers/KaldiReader/utterancesource.h).

The development embeds the data model and the algorithms of
minibatchutterancesource: chunk placement on the sweep timeline, the sliding
window computation, the constrained position and frame randomization, the
utterance mode getbatch loop, firstvalidglobalts, the chunk pager and the
chunk cache paging with its failure handling. Machine integers of the source
are modelled as Nat; the 16 bit frameref fields are handled through an
explicit capacity condition mirroring checkoverflow.
-/

set_option maxHeartbeats 1000000

deriving instance DecidableEq for Except

namespace msradbn

/-- Modelled from the spec: the random generator behind msra::dbn::rand and srand lives
in minibatchsourcehelpers.h and the C runtime, which are not among the provided
sources. The spec requires only a deterministic generator reseeded from the sweep
number, so the generator state is modelled as a natural number: srand stores the
seed. -/
def srand (seed : Nat) : Nat := seed

/-- Modelled from the spec: one step of the deterministic pseudo random generator,
a linear congruential step reduced modulo 2 to the 31. -/
def randnext (s : Nat) : Nat := (s * 1103515245 + 12345) % 2147483648

/-- Modelled from the spec: draw a number in the half open interval from a to b and
return it together with the advanced generator state. -/
def rand (a b s : Nat) : Nat × Nat :=
  let s2 := randnext s
  (a + s2 % (b - a), s2)

/-- List element swap used by the randomization loops: the counterpart of swapping two
vector elements, expressed with set and getD. -/
def lswap {α : Type} [Inhabited α] (l : List α) (i j : Nat) : List α :=
  (l.set i (l.getD j default)).set j (l.getD i default)

/-- Descriptor data of one chunk (utterancechunkdata): the utterance set is kept as the
list of per utterance frame counts; the archive path and label offset of
utterancedesc play no role in the verified properties. -/
structure utterancechunkdata where
  utteranceset : List Nat
deriving Repr, DecidableEq, Inhabited

def utterancechunkdata.numutterances (c : utterancechunkdata) : Nat :=
  c.utteranceset.length

/-- Total frame count of the chunk; the source maintains this as a running field
updated by push_back, which always equals the sum of the member frame counts. -/
def utterancechunkdata.totalframes (c : utterancechunkdata) : Nat :=
  c.utteranceset.sum

def utterancechunkdata.numframes (c : utterancechunkdata) (i : Nat) : Nat :=
  c.utteranceset.getD i 0

/-- Randomized chunk (struct chunk of the source): a chunk reference placed on the
sweep timeline with its utterance position range; the window bounds are computed by
windowat below. -/
structure chunk where
  chunkdata : utterancechunkdata
  utteranceposbegin : Nat
  globalts : Nat
deriving Repr, DecidableEq, Inhabited

def chunk.numutterances (c : chunk) : Nat := c.chunkdata.numutterances

def chunk.numframes (c : chunk) : Nat := c.chunkdata.totalframes

def chunk.utteranceposend (c : chunk) : Nat := c.utteranceposbegin + c.numutterances

def chunk.globalte (c : chunk) : Nat := c.globalts + c.numframes

/-- Lay the already shuffled chunks end to end on the sweep timeline, accumulating the
utterance position begin and the global time stamp exactly as the randomizedchunks
construction loop does. -/
def placechunks : List utterancechunkdata → Nat → Nat → List chunk
  | [], _, _ => []
  | c :: rest, pb, ts =>
    { chunkdata := c, utteranceposbegin := pb, globalts := ts }
      :: placechunks rest (pb + c.numutterances) (ts + c.totalframes)

def gtsat (g : List chunk) (k : Nat) : Nat := (g.getD k default).globalts

def gteat (g : List chunk) (k : Nat) : Nat := (g.getD k default).globalte

/-- The windowbegin advance loop of the window computation: increment wb while the time
distance from the chunk at wb to the target chunk exceeds half the randomization
range. Fuel bounds the iterations; the source loop stops by itself no later than at
the target chunk, so fuel equal to the chunk count never cuts it short. -/
def wbloop (g : List chunk) (r2 target : Nat) : Nat → Nat → Nat
  | 0, wb => wb
  | Nat.succ fuel, wb =>
    if r2 < target - gtsat g wb then wbloop g r2 target fuel (wb + 1) else wb

/-- The windowend advance loop: extend the window to the right while the next chunk
still ends within half the randomization range of the target chunk start. -/
def weloop (g : List chunk) (r2 target : Nat) : Nat → Nat → Nat
  | 0, we => we
  | Nat.succ fuel, we =>
    if we < g.length ∧ gteat g we - target < r2 then weloop g r2 target fuel (we + 1)
    else we

/-- Window of randomized chunk k, computed with the two sliding pointers of the source:
chunk 0 starts from the window [0, 1), chunk k+1 starts from the window of chunk k,
and both ends are advanced by the two while loops. -/
def windowat (g : List chunk) (r2 : Nat) : Nat → Nat × Nat
  | 0 => (wbloop g r2 (gtsat g 0) g.length 0, weloop g r2 (gtsat g 0) g.length 1)
  | Nat.succ k =>
    let w := windowat g r2 k
    (wbloop g r2 (gtsat g (k + 1)) g.length w.1,
     weloop g r2 (gtsat g (k + 1)) g.length w.2)

/-- Utterance position reference (utteranceref of the source): the underlying utterance
as a chunk index into the randomized chunk sequence plus the index inside that
chunk. -/
structure utteranceref where
  chunkindex : Nat
  utteranceindex : Nat
deriving Repr, DecidableEq, Inhabited

/-- Defining chunk index for every utterance position: positionchunkwindows stores, for
each position, the chunk of the randomized sequence that owns the position. -/
def pcwaux : List chunk → Nat → List Nat
  | [], _ => []
  | c :: rest, k => List.replicate c.numutterances k ++ pcwaux rest (k + 1)

def pcwof (g : List chunk) : List Nat := pcwaux g 0

/-- Initial utterance position assignment: positions enumerate the randomized chunks
and their utterances in order, before any constrained swap. -/
def initrefsaux : List chunk → Nat → List utteranceref
  | [], _ => []
  | c :: rest, k =>
    (List.range c.numutterances).map (fun i => { chunkindex := k, utteranceindex := i })
      ++ initrefsaux rest (k + 1)

/-- Boolean form of positionchunkwindow.isvalidforthisposition: the chunk underlying u
must lie in the window of the defining chunk of position x. -/
def uttvalidb (g : List chunk) (r2 : Nat) (pcw : List Nat) (x : Nat)
    (u : utteranceref) : Bool :=
  decide ((windowat g r2 (pcw.getD x 0)).1 ≤ u.chunkindex)
    && decide (u.chunkindex < (windowat g r2 (pcw.getD x 0)).2)

/-- Retry bound for one swap draw loop. The source retries without bound until an
admissible partner is drawn; the bound only cuts retries off and never admits an
unchecked swap, so it is irrelevant to every window validity property. -/
def retryfuel : Nat := 100

/-- One utterance position of the constrained shuffle: draw a partner position from the
position range of the window of position i, accept a no-op when the draw equals i,
retry while either direction of the swap would put an utterance outside the window
of its new position, and swap once both checks pass. -/
def swapretry (g : List chunk) (r2 : Nat) (pcw : List Nat) (pb pe i : Nat) :
    Nat → List utteranceref → Nat → List utteranceref × Nat
  | 0, refs, s => (refs, s)
  | Nat.succ fuel, refs, s =>
    let dr := rand pb pe s
    if i = dr.1 then (refs, dr.2)
    else if uttvalidb g r2 pcw i (refs.getD dr.1 default) = false then
      swapretry g r2 pcw pb pe i fuel refs dr.2
    else if uttvalidb g r2 pcw dr.1 (refs.getD i default) = false then
      swapretry g r2 pcw pb pe i fuel refs dr.2
    else (lswap refs i dr.1, dr.2)

/-- The utterance mode randomization pass: reseed from sweep plus one, then visit every
utterance position in increasing order and run the constrained swap step with the
position range implied by the window of the defining chunk. -/
def randomizeutterancerefs (g : List chunk) (r2 sweep : Nat) :
    List utteranceref × Nat :=
  let pcw := pcwof g
  let refs0 := initrefsaux g 0
  (List.range refs0.length).foldl
    (fun p i =>
      let wb := (windowat g r2 (pcw.getD i 0)).1
      let we := (windowat g r2 (pcw.getD i 0)).2
      let pb := (g.getD wb default).utteranceposbegin
      let pe := (g.getD (we - 1) default).utteranceposend
      swapretry g r2 pcw pb pe i retryfuel p.1 p.2)
    (refs0, srand (sweep + 1))

/-- Utterance position with the cached frame count and global start time filled in, as
done by the placement loop that runs after the shuffle. -/
structure placedref where
  chunkindex : Nat
  utteranceindex : Nat
  numframes : Nat
  globalts : Nat
deriving Repr, DecidableEq, Inhabited

def placedref.globalte (p : placedref) : Nat := p.globalts + p.numframes

/-- Place the randomized utterances on the global timeline: globalts accumulates the
frame counts looked up from the underlying chunk data. -/
def placerefs (g : List chunk) : List utteranceref → Nat → List placedref
  | [], _ => []
  | u :: rest, t =>
    let nf := (g.getD u.chunkindex default).chunkdata.numframes u.utteranceindex
    { chunkindex := u.chunkindex, utteranceindex := u.utteranceindex,
      numframes := nf, globalts := t }
      :: placerefs g rest (t + nf)

/-- Frame reference (frameref of the source): chunk, utterance and frame index of one
randomized frame position. The source packs these into 16 bit fields; the capacity
condition framerefsfit below delimits the domain on which this model and the packed
representation agree. -/
structure frameref where
  chunkindex : Nat
  utteranceindex : Nat
  frameindex : Nat
deriving Repr, DecidableEq, Inhabited

/-- Capacity limit of the frame index field of frameref on wide builds. -/
def maxframesperutterance : Nat := 65535

/-- Capacity limit of the utterance index field of frameref on wide builds. -/
def maxutterancesperchunk : Nat := 65535

def uttframerefs (k u n : Nat) : List frameref :=
  (List.range n).map (fun m => { chunkindex := k, utteranceindex := u, frameindex := m })

def chunkframerefsaux (k u : Nat) : List Nat → List frameref
  | [] => []
  | n :: rest => uttframerefs k u n ++ chunkframerefsaux k (u + 1) rest

/-- Initial frame position assignment: enumerate randomized chunks, their utterances
and their frames in order, one frameref per frame position. -/
def initframerefsaux : Nat → List chunk → List frameref
  | _, [] => []
  | k, c :: rest =>
    chunkframerefsaux k 0 c.chunkdata.utteranceset ++ initframerefsaux (k + 1) rest

/-- Map from frame position to the randomized chunk index owning that position
(ttochunk of the source). -/
def ttochunkaux : Nat → List chunk → List Nat
  | _, [] => []
  | k, c :: rest => List.replicate c.chunkdata.totalframes k ++ ttochunkaux (k + 1) rest

/-- Capacity condition under which the frameref bit fields and the ttochunk entries hold
their indices exactly: the source casts each index to a 16 bit field and
checkoverflow raises a fatal error whenever the cast changes the value, so a frame
randomization that completes implies this condition, and on this domain the pure
builders above coincide with the source. -/
def framerefsfit (g : List chunk) : Bool :=
  decide (g.length ≤ 65536)
    && g.all (fun c =>
        decide (c.chunkdata.numutterances ≤ 65536)
          && c.chunkdata.utteranceset.all (fun n => decide (n ≤ 65536)))

/-- Boolean helper isframepositionvalid of the source: the chunk underlying frame
position t must lie inside the window of the chunk owning position t. -/
def isframepositionvalid (g : List chunk) (r2 : Nat) (tto : List Nat)
    (refs : List frameref) (t : Nat) : Bool :=
  decide ((windowat g r2 (tto.getD t 0)).1 ≤ (refs.getD t default).chunkindex)
    && decide ((refs.getD t default).chunkindex < (windowat g r2 (tto.getD t 0)).2)

/-- One frame position of the constrained frame shuffle: draw a partner frame position
from the frame range covered by the window, retry while either direction of the swap
would leave a frame outside the window of its new position, swap, and keep the swap
only if the post check of the source confirms both positions (otherwise swap back
and retry, mirroring the active post check branch). -/
def fswapretry (g : List chunk) (r2 : Nat) (tto : List Nat) (pb pe t : Nat) :
    Nat → List frameref → Nat → List frameref × Nat
  | 0, refs, s => (refs, s)
  | Nat.succ fuel, refs, s =>
    let dr := rand pb pe s
    if (refs.getD dr.1 default).chunkindex < (windowat g r2 (tto.getD t 0)).1
        ∨ (windowat g r2 (tto.getD t 0)).2 ≤ (refs.getD dr.1 default).chunkindex then
      fswapretry g r2 tto pb pe t fuel refs dr.2
    else if (refs.getD t default).chunkindex < (windowat g r2 (tto.getD dr.1 0)).1
        ∨ (windowat g r2 (tto.getD dr.1 0)).2 ≤ (refs.getD t default).chunkindex then
      fswapretry g r2 tto pb pe t fuel refs dr.2
    else
      if isframepositionvalid g r2 tto (lswap refs t dr.1) t
          && isframepositionvalid g r2 tto (lswap refs t dr.1) dr.1 then
        (lswap refs t dr.1, dr.2)
      else fswapretry g r2 tto pb pe t fuel (lswap (lswap refs t dr.1) t dr.1) dr.2

/-- The frame mode randomization pass: reseed from sweep plus one, then visit every
frame position in increasing order and run the constrained swap step with the frame
position range covered by the window of the owning chunk. -/
def randomizeframerefs (g : List chunk) (r2 sweep sweepts : Nat) :
    List frameref × Nat :=
  let tto := ttochunkaux 0 g
  let refs0 := initframerefsaux 0 g
  (List.range refs0.length).foldl
    (fun p t =>
      let wb := (windowat g r2 (tto.getD t 0)).1
      let we := (windowat g r2 (tto.getD t 0)).2
      let pb := (g.getD wb default).globalts - sweepts
      let pe := (g.getD (we - 1) default).globalte - sweepts
      fswapretry g r2 tto pb pe t retryfuel p.1 p.2)
    (refs0, srand (sweep + 1))

/-- Fisher Yates style random swap shuffle of the source (randomshuffle): reseed from
the given seed, then for every index draw a partner anywhere in the vector and swap
unless the draw equals the index. The RAND_MAX size guard of the source is omitted:
it only rejects corpora beyond what the generator can index. -/
def randomshuffle {α : Type} [Inhabited α] (v : List α) (seed : Nat) :
    List α × Nat :=
  (List.range v.length).foldl
    (fun p i =>
      let dr := rand 0 v.length p.2
      if dr.1 = i then (p.1, dr.2) else (lswap p.1 i dr.1, dr.2))
    (v, srand seed)

/-- Snapshot produced by one rerandomization: the members rebuilt by
lazyrandomization for the current sweep. -/
structure randstate where
  randomizedchunks : List chunk
  windows : List (Nat × Nat)
  randomizedutterancerefs : List placedref
  randomizedframerefs : List frameref
  rngstate : Nat
deriving Repr, DecidableEq, Inhabited

def totalframesof (cs : List utterancechunkdata) : Nat :=
  (cs.map utterancechunkdata.totalframes).sum

/-- Full rebuild for a sweep: shuffle the chunks with the seed equal to the sweep
number, place them on the timeline, compute every window, and run the mode specific
position randomization reseeded from sweep plus one. -/
def rebuildrandomization (cs : List utterancechunkdata) (range : Nat) (fm : Bool)
    (sweep : Nat) : randstate :=
  let sweepts := sweep * totalframesof cs
  let sh := randomshuffle cs sweep
  let g := placechunks sh.1 0 sweepts
  let r2 := range / 2
  let ws := (List.range g.length).map (windowat g r2)
  if fm then
    let fr := randomizeframerefs g r2 sweep sweepts
    { randomizedchunks := g, windows := ws, randomizedutterancerefs := [],
      randomizedframerefs := fr.1, rngstate := fr.2 }
  else
    let ur := randomizeutterancerefs g r2 sweep
    { randomizedchunks := g, windows := ws,
      randomizedutterancerefs := placerefs g ur.1 sweepts,
      randomizedframerefs := [], rngstate := ur.2 }

/-- The sweep cached state of the source object: the corpus, the parameters, the sweep
for which the randomization is cached, and the cached snapshot. -/
structure sourcestate where
  allchunks : List utterancechunkdata
  randomizationrange : Nat
  framemode : Bool
  currentsweep : Option Nat
  rnd : randstate
deriving Repr, DecidableEq, Inhabited

/-- lazyrandomization of the source: compute the sweep from globalts, return the cached
state when the sweep is unchanged, otherwise rebuild everything for the new sweep. -/
def lazyrandomization (st : sourcestate) (globalts : Nat) : sourcestate :=
  let sweep := globalts / totalframesof st.allchunks
  if st.currentsweep = some sweep then st
  else { st with currentsweep := some sweep,
                 rnd := rebuildrandomization st.allchunks st.randomizationrange
                          st.framemode sweep }

/-- Lookup of the randomizedutteranceposmap: find the position whose recorded global
start time equals the requested one. The map keys are the recorded start times,
which are pairwise distinct because placement accumulates positive frame counts, so
the map lookup equals this first match scan. -/
def finduttpos (gts : Nat) : List placedref → Option Nat
  | [] => none
  | p :: rest =>
    if p.globalts = gts then some 0 else (finduttpos gts rest).map (fun q => q + 1)

/-- The greedy utterance accumulation loop of getbatch: starting from the frame count
of the start utterance, add further consecutive positions while the running total
plus the next frame count stays strictly below the request. -/
def greedyloop (nf : Nat → Nat) (n req : Nat) : Nat → Nat → Nat → Nat × Nat
  | 0, epos, mb => (epos, mb)
  | Nat.succ fuel, epos, mb =>
    if epos < n ∧ mb + nf epos < req then greedyloop nf n req fuel (epos + 1) (mb + nf epos)
    else (epos, mb)

/-- End position and frame total selected by getbatch for a start position. -/
def getbatchrange (placed : List placedref) (req spos : Nat) : Nat × Nat :=
  greedyloop (fun p => (placed.getD p default).numframes) placed.length req
    placed.length (spos + 1) ((placed.getD spos default).numframes)

/-- Utterance mode getbatch core: resolve the exact start boundary (a mismatch is a
usage error) and run the greedy loop; the result is the start position, the end
position and the returned frame total. -/
def getbatchut (placed : List placedref) (gts req : Nat) :
    Except String (Nat × Nat × Nat) :=
  match finduttpos gts placed with
  | none =>
    Except.error "getbatch: invalid globalts parameter; must match an existing utterance boundary"
  | some spos =>
    Except.ok (spos, (getbatchrange placed req spos).1, (getbatchrange placed req spos).2)

/-- Sum of the frame counts of the positions from a up to b exclusive. -/
def sumnf (nf : Nat → Nat) (a b : Nat) : Nat :=
  ((List.range (b - a)).map (fun d => nf (a + d))).sum

/-- Modelled from the spec, for comparison with the source loop: the spec stops only
before adding an utterance that would be the first to exceed the budget once the
budget is already met, that is, it keeps adding while the running total is still
below the request. -/
def specgreedyloop (nf : Nat → Nat) (n req : Nat) : Nat → Nat → Nat → Nat × Nat
  | 0, epos, mb => (epos, mb)
  | Nat.succ fuel, epos, mb =>
    if epos < n ∧ mb < req then specgreedyloop nf n req fuel (epos + 1) (mb + nf epos)
    else (epos, mb)

/-- The utterance mode scan of firstvalidglobalts: return the first recorded start at
or after the request, or the end of the last utterance when the request falls past
every start. The empty corpus case returns zero; the source never reaches it since
construction rejects empty corpora. -/
def fvscan (gts : Nat) : List placedref → Nat
  | [] => 0
  | [p] => if gts ≤ p.globalts then p.globalts else p.globalte
  | p :: q :: rest => if gts ≤ p.globalts then p.globalts else fvscan gts (q :: rest)

/-- firstvalidglobalts of the source: frame mode returns the input unchanged, utterance
mode scans the recorded starts. -/
def firstvalidglobalts (fm : Bool) (placed : List placedref) (gts : Nat) : Nat :=
  if fm then gts else fvscan gts placed

/-- Boolean check that the recorded start times are in nondecreasing order, which the
placement loop guarantees. -/
def sortedstarts : List placedref → Bool
  | [] => true
  | [_] => true
  | p :: q :: rest => decide (p.globalts ≤ q.globalts) && sortedstarts (q :: rest)

/-- Modelled from the spec: msra::util::attempt of basetypes.h is not among the
provided sources; per the spec it runs the body with up to the given number of
attempts, retrying on failure and propagating the failure once the attempts are
exhausted. The transient outcome of attempt number a is given by io a. -/
def attemptload (io : Nat → Bool) : Nat → Nat → Except String Unit
  | _, 0 => Except.error "requiredata: read failure"
  | a, Nat.succ n => if io a then Except.ok () else attemptload io (a + 1) n

/-- requirerandomizedchunk of the source over an abstract residency state (one Bool per
randomized chunk): a chunk index outside the window is a fatal logic error, a
resident chunk is returned without any read, and a nonresident chunk is read with
up to five attempts before the failure propagates. -/
def requirerandomizedchunk (ram : List Bool) (io : Nat → Bool)
    (chunkindex wb we : Nat) : Except String Bool × List Bool :=
  if chunkindex < wb ∨ we ≤ chunkindex then
    (Except.error "requirerandomizedchunk: requested utterance outside in-memory chunk range",
     ram)
  else if ram.getD chunkindex false then (Except.ok false, ram)
  else
    match attemptload io 0 5 with
    | Except.ok _ => (Except.ok true, ram.set chunkindex true)
    | Except.error e => (Except.error e, ram)

/-- releaserandomizedchunk of the source over the abstract residency state: a page out
of a chunk that is not resident is a no-op. -/
def releaserandomizedchunk (ram : List Bool) (k : Nat) : List Bool :=
  if ram.getD k false then ram.set k false else ram

/-- Cache region of one chunk (the mutable part of utterancechunkdata): the lazily
allocated frame buffer, one slot per utterance filled by the reader, and the lattice
vector. Frame contents are abstracted to Nat; none means paged out. -/
structure chunkcache where
  frames : Option (List (Option Nat))
  lattices : List Nat
deriving Repr, DecidableEq, Inhabited

def chunkcache.isinram (c : chunkcache) : Bool := c.frames.isSome

/-- releasedata of the source: frees the frame buffer and the lattice vector; calling
it on a virgin or nonresident chunk is a logic error. -/
def releasedata (numutt : Nat) (c : chunkcache) : Except String chunkcache :=
  if numutt = 0 then Except.error "releasedata: cannot page out virgin block"
  else if c.isinram = false then Except.error "releasedata: called when data is not memory"
  else Except.ok { frames := none, lattices := [] }

def setframeslot (c : chunkcache) (i v : Nat) : chunkcache :=
  match c.frames with
  | none => c
  | some slots => { c with frames := some (slots.set i (some v)) }

/-- The per utterance read loop of requiredata: read the features of utterance i (the
reader outcome is readutt i) and, in lattice mode, fetch its lattice; a failure
carries the cache state reached so far. -/
def fillloop (readutt : Nat → Except String Nat) (latmode : Bool)
    (getlat : Nat → Except String Nat) :
    Nat → Nat → chunkcache → Except (String × chunkcache) chunkcache
  | 0, _, c => Except.ok c
  | Nat.succ n, i, c =>
    match readutt i with
    | Except.error e => Except.error (e, c)
    | Except.ok v =>
      let c1 := setframeslot c i v
      if latmode then
        match getlat i with
        | Except.error e => Except.error (e, c1)
        | Except.ok w =>
          fillloop readutt latmode getlat n (i + 1) { c1 with lattices := c1.lattices.set i w }
      else fillloop readutt latmode getlat n (i + 1) c1

/-- The try block of requiredata: learn the feature dimension on the very first read
(getinfo may fail), allocate the frame buffer and the lattice vector, then run the
read loop. A failure carries the cache state reached at the failure point. -/
def requiredatabody (numutt featdim : Nat) (getinfo : Except String Nat)
    (readutt : Nat → Except String Nat) (latmode : Bool)
    (getlat : Nat → Except String Nat) (c : chunkcache) :
    Except (String × chunkcache) chunkcache :=
  match (if featdim = 0 then getinfo else Except.ok featdim) with
  | Except.error e => Except.error (e, c)
  | Except.ok _ =>
    fillloop readutt latmode getlat numutt 0
      { frames := some (List.replicate numutt none),
        lattices := if latmode then List.replicate numutt 0 else c.lattices }

/-- requiredata of the source: guard against a virgin or already resident chunk, run
the try block, and on any failure release the partially filled cache before the
error propagates (the catch block); releasing a cache that was never allocated
itself raises, replacing the original error, with the cache unchanged. -/
def requiredata (numutt featdim : Nat) (getinfo : Except String Nat)
    (readutt : Nat → Except String Nat) (latmode : Bool)
    (getlat : Nat → Except String Nat) (c : chunkcache) :
    Except String Unit × chunkcache :=
  if numutt = 0 then (Except.error "requiredata: cannot page in virgin block", c)
  else if c.isinram then (Except.error "requiredata: called when data is already in memory", c)
  else
    match requiredatabody numutt featdim getinfo readutt latmode getlat c with
    | Except.ok c2 => (Except.ok (), c2)
    | Except.error ec =>
      match releasedata numutt ec.2 with
      | Except.ok c3 => (Except.error ec.1, c3)
      | Except.error e2 => (Except.error e2, ec.2)

/-- The per utterance admission loop of the constructor, restricted to the data that
decides admission in unsupervised mode: each input is the frame count of one
utterance; fewer than two frames is fatal, a frame count above the frameref
capacity is skipped with a diagnostic, everything else is kept in order. -/
def buildutteranceset : List Nat → Except String (List Nat)
  | [] => Except.ok []
  | f :: rest =>
    if f < 2 then Except.error "minibatchutterancesource: utterances < 2 frames not supported"
    else if maxframesperutterance < f then buildutteranceset rest
    else
      match buildutteranceset rest with
      | Except.ok r => Except.ok (f :: r)
      | Except.error e => Except.error e

/-- Per position validity predicate over a defining chunk map: the chunk underlying u
lies inside the window of the defining chunk of position x (the Prop counterpart of
uttvalidb). -/
abbrev uttvalidp (g : List chunk) (r2 : Nat) (pcw : List Nat) (x : Nat)
    (u : utteranceref) : Prop :=
  (windowat g r2 (pcw.getD x 0)).1 ≤ u.chunkindex ∧
    u.chunkindex < (windowat g r2 (pcw.getD x 0)).2

/-- Per frame position validity predicate: the chunk underlying the frame at position t
lies inside the window of the chunk owning position t. -/
abbrev framevalidp (g : List chunk) (r2 : Nat) (tto : List Nat) (t : Nat)
    (fr : frameref) : Prop :=
  (windowat g r2 (tto.getD t 0)).1 ≤ fr.chunkindex ∧
    fr.chunkindex < (windowat g r2 (tto.getD t 0)).2

/-- Validity of an entire assignment: every position of the list satisfies its own
positional predicate. -/
abbrev allvalid {α : Type} [Inhabited α] (V : Nat → α → Prop) (l : List α) : Prop :=
  ∀ i, i < l.length → V i (l.getD i default)

/-- Window sanity for a randomized chunk sequence: every window contains its own
chunk. -/
abbrev windowscontain (g : List chunk) (r2 : Nat) : Prop :=
  ∀ k, k < g.length → (windowat g r2 k).1 ≤ k ∧ k < (windowat g r2 k).2

/-! List access utilities used throughout the invariant proofs. -/

theorem getD_oob {α : Type} [Inhabited α] {l : List α} {i : Nat} (h : l.length ≤ i) :
    l.getD i default = default := by
  induction l generalizing i with
  | nil => simp [List.getD]
  | cons a t ih =>
    cases i with
    | zero => simp at h
    | succ n => simpa using ih (Nat.le_of_succ_le_succ h)

theorem getD_set_self {α : Type} [Inhabited α] {l : List α} {i : Nat} (a : α)
    (h : i < l.length) : (l.set i a).getD i default = a := by
  induction l generalizing i with
  | nil => simp at h
  | cons b t ih =>
    cases i with
    | zero => rfl
    | succ n => simpa using ih (Nat.lt_of_succ_lt_succ h)

theorem getD_set_ne {α : Type} [Inhabited α] {l : List α} {i j : Nat} (a : α)
    (h : i ≠ j) : (l.set i a).getD j default = l.getD j default := by
  induction l generalizing i j with
  | nil => rfl
  | cons b t ih =>
    cases i with
    | zero =>
      cases j with
      | zero => exact absurd rfl h
      | succ m => rfl
    | succ n =>
      cases j with
      | zero => rfl
      | succ m => simpa using ih (fun hc => h (congrArg Nat.succ hc))

theorem length_lswap {α : Type} [Inhabited α] (l : List α) (i j : Nat) :
    (lswap l i j).length = l.length := by
  simp [lswap]

theorem getD_lswap_right {α : Type} [Inhabited α] {l : List α} {i j : Nat}
    (h : j < l.length) : (lswap l i j).getD j default = l.getD i default := by
  have hlen : j < (l.set i (l.getD j default)).length := by simpa using h
  exact getD_set_self _ hlen

theorem getD_lswap_left {α : Type} [Inhabited α] {l : List α} {i j : Nat}
    (hne : i ≠ j) (h : i < l.length) : (lswap l i j).getD i default = l.getD j default := by
  unfold lswap
  rw [getD_set_ne _ (fun hc => hne hc.symm), getD_set_self _ h]

theorem getD_lswap_other {α : Type} [Inhabited α] {l : List α} {i j x : Nat}
    (hxi : x ≠ i) (hxj : x ≠ j) : (lswap l i j).getD x default = l.getD x default := by
  unfold lswap
  rw [getD_set_ne _ (fun hc => hxj hc.symm), getD_set_ne _ (fun hc => hxi hc.symm)]

theorem getD_mem {α : Type} [Inhabited α] {l : List α} {i : Nat} (h : i < l.length) :
    l.getD i default ∈ l := by
  induction l generalizing i with
  | nil => simp at h
  | cons a t ih =>
    cases i with
    | zero => simp [List.getD]
    | succ n =>
      have := ih (i := n) (Nat.lt_of_succ_lt_succ h)
      simpa using Or.inr this

theorem getD_map {α β : Type} [Inhabited α] [Inhabited β] (f : α → β)
    (hd : f default = default) (l : List α) (i : Nat) :
    (l.map f).getD i default = f (l.getD i default) := by
  induction l generalizing i with
  | nil => simpa [List.getD] using hd.symm
  | cons a t ih =>
    cases i with
    | zero => rfl
    | succ n => simpa using ih n

/-- A swap whose two incoming elements were checked against the windows of their new
positions preserves validity of the whole assignment. -/
theorem allvalid_lswap {α : Type} [Inhabited α] {V : Nat → α → Prop} {l : List α}
    {i j : Nat} (hall : allvalid V l)
    (hi : i < l.length → V i (l.getD j default))
    (hj : j < l.length → V j (l.getD i default)) : allvalid V (lswap l i j) := by
  intro x hx
  rw [length_lswap] at hx
  by_cases hxj : x = j
  · subst hxj
    rw [getD_lswap_right hx]
    exact hj hx
  · by_cases hxi : x = i
    · subst hxi
      rw [getD_lswap_left hxj hx]
      exact hi hx
    · rw [getD_lswap_other hxi hxj]
      exact hall x hx

/-- Fold invariance: a property preserved by every step of a fold is preserved by the
fold, where the step may use membership of the visited element. -/
theorem foldl_inv_mem {α β : Type} {P : β → Prop} {f : β → α → β} {l : List α}
    (h : ∀ b a, a ∈ l → P b → P (f b a)) {b : β} (hb : P b) : P (l.foldl f b) := by
  induction l generalizing b with
  | nil => exact hb
  | cons a t ih =>
    exact ih (fun b2 a2 ha2 hb2 => h b2 a2 (List.mem_cons_of_mem _ ha2) hb2)
      (h b a (List.mem_cons_self _ _) hb)

/-! Utterance mode randomization: the constrained swap loop preserves window
validity of the whole position assignment. -/

theorem uttvalidb_iff (g : List chunk) (r2 : Nat) (pcw : List Nat) (x : Nat)
    (u : utteranceref) : uttvalidb g r2 pcw x u = true ↔ uttvalidp g r2 pcw x u := by
  simp [uttvalidb, uttvalidp]

theorem swapretry_preserves (g : List chunk) (r2 : Nat) (pcw : List Nat)
    (pb pe i : Nat) :
    ∀ (fuel : Nat) (refs : List utteranceref) (s : Nat),
      allvalid (uttvalidp g r2 pcw) refs →
      allvalid (uttvalidp g r2 pcw) (swapretry g r2 pcw pb pe i fuel refs s).1 := by
  intro fuel
  induction fuel with
  | zero => intro refs s hall; simpa [swapretry] using hall
  | succ n ih =>
    intro refs s hall
    rw [swapretry]
    by_cases h1 : i = (rand pb pe s).1
    · simp only [if_pos h1]
      exact hall
    · simp only [if_neg h1]
      by_cases h2 : uttvalidb g r2 pcw i (refs.getD (rand pb pe s).1 default) = false
      · simp only [if_pos h2]
        exact ih refs _ hall
      · simp only [if_neg h2]
        by_cases h3 : uttvalidb g r2 pcw (rand pb pe s).1 (refs.getD i default) = false
        · simp only [if_pos h3]
          exact ih refs _ hall
        · simp only [if_neg h3]
          have hb2 : uttvalidb g r2 pcw i (refs.getD (rand pb pe s).1 default) = true := by
            simpa using h2
          have hb3 : uttvalidb g r2 pcw (rand pb pe s).1 (refs.getD i default) = true := by
            simpa using h3
          exact allvalid_lswap hall (fun _ => (uttvalidb_iff g r2 pcw _ _).1 hb2)
            (fun _ => (uttvalidb_iff g r2 pcw _ _).1 hb3)

theorem rangemap_const {β : Type} (k : β) : ∀ n : Nat,
    (List.range n).map (fun _ => k) = List.replicate n k := by
  intro n
  induction n with
  | zero => rfl
  | succ m ih =>
    rw [List.range_succ, List.map_append, ih]
    simp [List.replicate_succ']

theorem initrefs_map_chunkindex (g : List chunk) :
    ∀ k, (initrefsaux g k).map utteranceref.chunkindex = pcwaux g k := by
  induction g with
  | nil => intro k; rfl
  | cons c rest ih =>
    intro k
    simp only [initrefsaux, pcwaux, List.map_append, List.map_map, ih (k + 1)]
    congr 1
    have : (utteranceref.chunkindex ∘ fun i =>
        ({ chunkindex := k, utteranceindex := i } : utteranceref)) = fun _ => k := rfl
    rw [this, rangemap_const]

theorem pcwaux_mem_bounds (g : List chunk) :
    ∀ k0 x, x ∈ pcwaux g k0 → k0 ≤ x ∧ x < k0 + g.length := by
  induction g with
  | nil => intro k0 x hx; simp [pcwaux] at hx
  | cons c rest ih =>
    intro k0 x hx
    simp only [pcwaux, List.mem_append] at hx
    rcases hx with hx | hx
    · have := List.eq_of_mem_replicate hx
      subst this
      simp only [List.length_cons]
      omega
    · have := ih (k0 + 1) x hx
      simp only [List.length_cons]
      omega

theorem initrefs_length (g : List chunk) :
    (initrefsaux g 0).length = (pcwof g).length := by
  have h := congrArg List.length (initrefs_map_chunkindex g 0)
  simpa [pcwof] using h

theorem initrefs_allvalid (g : List chunk) (r2 : Nat) (hw : windowscontain g r2) :
    allvalid (uttvalidp g r2 (pcwof g)) (initrefsaux g 0) := by
  intro i hi
  have hci : ((initrefsaux g 0).getD i default).chunkindex = (pcwof g).getD i 0 := by
    have hm := getD_map utteranceref.chunkindex rfl (initrefsaux g 0) i
    rw [initrefs_map_chunkindex g 0] at hm
    exact hm.symm
  have hplen : i < (pcwof g).length := by rw [← initrefs_length g]; exact hi
  have hmem : (pcwof g).getD i 0 ∈ pcwof g := by
    have := getD_mem (l := pcwof g) (i := i) hplen
    simpa using this
  have hb := pcwaux_mem_bounds g 0 _ hmem
  have hcont := hw ((pcwof g).getD i 0) (by omega)
  exact ⟨by rw [hci]; exact hcont.1, by rw [hci]; exact hcont.2⟩

theorem randomizeutterancerefs_valid (g : List chunk) (r2 sweep : Nat)
    (hw : windowscontain g r2) :
    allvalid (uttvalidp g r2 (pcwof g)) (randomizeutterancerefs g r2 sweep).1 := by
  unfold randomizeutterancerefs
  exact foldl_inv_mem
    (P := fun (p : List utteranceref × Nat) => allvalid (uttvalidp g r2 (pcwof g)) p.1)
    (fun (b : List utteranceref × Nat) a _ hb =>
      swapretry_preserves g r2 (pcwof g) _ _ a retryfuel b.1 b.2 hb)
    (initrefs_allvalid g r2 hw)

/-! Frame mode randomization: the constrained swap loop with its bidirectional
admissibility checks and post check preserves window validity. -/

theorem isframepositionvalid_iff (g : List chunk) (r2 : Nat) (tto : List Nat)
    (refs : List frameref) (t : Nat) :
    isframepositionvalid g r2 tto refs t = true ↔
      framevalidp g r2 tto t (refs.getD t default) := by
  simp [isframepositionvalid, framevalidp]

theorem fswapretry_length (g : List chunk) (r2 : Nat) (tto : List Nat)
    (pb pe t : Nat) :
    ∀ (fuel : Nat) (refs : List frameref) (s : Nat),
      ((fswapretry g r2 tto pb pe t fuel refs s).1).length = refs.length := by
  intro fuel
  induction fuel with
  | zero => intro refs s; simp [fswapretry]
  | succ n ih =>
    intro refs s
    rw [fswapretry]
    split
    · exact ih refs _
    · split
      · exact ih refs _
      · split
        · simp [length_lswap]
        · rw [ih]
          simp [length_lswap]

theorem fswapretry_preserves (g : List chunk) (r2 : Nat) (tto : List Nat)
    (pb pe t : Nat) :
    ∀ (fuel : Nat) (refs : List frameref) (s : Nat),
      t < refs.length →
      allvalid (framevalidp g r2 tto) refs →
      allvalid (framevalidp g r2 tto) (fswapretry g r2 tto pb pe t fuel refs s).1 := by
  intro fuel
  induction fuel with
  | zero => intro refs s _ hall; simpa [fswapretry] using hall
  | succ n ih =>
    intro refs s ht hall
    rw [fswapretry]
    by_cases h1 : (refs.getD (rand pb pe s).1 default).chunkindex
          < (windowat g r2 (tto.getD t 0)).1
        ∨ (windowat g r2 (tto.getD t 0)).2
          ≤ (refs.getD (rand pb pe s).1 default).chunkindex
    · simp only [if_pos h1]
      exact ih refs _ ht hall
    · simp only [if_neg h1]
      by_cases h2 : (refs.getD t default).chunkindex
            < (windowat g r2 (tto.getD (rand pb pe s).1 0)).1
          ∨ (windowat g r2 (tto.getD (rand pb pe s).1 0)).2
            ≤ (refs.getD t default).chunkindex
      · simp only [if_pos h2]
        exact ih refs _ ht hall
      · simp only [if_neg h2]
        have check1 : framevalidp g r2 tto t (refs.getD (rand pb pe s).1 default) := by
          constructor <;> omega
        have check2 : framevalidp g r2 tto (rand pb pe s).1 (refs.getD t default) := by
          constructor <;> omega
        have hvalid2 : allvalid (framevalidp g r2 tto) (lswap refs t (rand pb pe s).1) :=
          allvalid_lswap hall (fun _ => check1) (fun _ => check2)
        split
        · exact hvalid2
        · -- the post check failed: swap back and retry
          have hlen2 : (lswap refs t (rand pb pe s).1).length = refs.length :=
            length_lswap refs t (rand pb pe s).1
          have hi3 : t < (lswap refs t (rand pb pe s).1).length →
              framevalidp g r2 tto t
                ((lswap refs t (rand pb pe s).1).getD (rand pb pe s).1 default) := by
            intro _
            by_cases hj : (rand pb pe s).1 < refs.length
            · rw [getD_lswap_right hj]
              exact hall t ht
            · have hoob : refs.length ≤ (rand pb pe s).1 := Nat.le_of_not_lt hj
              rw [getD_oob (by rw [hlen2]; exact hoob)]
              have := check1
              rwa [getD_oob hoob] at this
          have hj3 : (rand pb pe s).1 < (lswap refs t (rand pb pe s).1).length →
              framevalidp g r2 tto (rand pb pe s).1
                ((lswap refs t (rand pb pe s).1).getD t default) := by
            intro hj2
            rw [hlen2] at hj2
            by_cases het : t = (rand pb pe s).1
            · rw [← het]
              rw [← het] at hj2
              rw [getD_lswap_right (i := t) (j := t) hj2]
              exact hall t ht
            · rw [getD_lswap_left het ht]
              exact hall _ hj2
          have hvalid3 : allvalid (framevalidp g r2 tto)
              (lswap (lswap refs t (rand pb pe s).1) t (rand pb pe s).1) :=
            allvalid_lswap hvalid2 hi3 hj3
          have hlen3 : t < (lswap (lswap refs t (rand pb pe s).1) t (rand pb pe s).1).length := by
            rw [length_lswap, length_lswap]
            exact ht
          exact ih _ _ hlen3 hvalid3

theorem chunkframerefsaux_map (k : Nat) :
    ∀ (u : Nat) (us : List Nat),
      (chunkframerefsaux k u us).map frameref.chunkindex = List.replicate us.sum k := by
  intro u us
  induction us generalizing u with
  | nil => rfl
  | cons n rest ih =>
    simp only [chunkframerefsaux, List.map_append, ih (u + 1), List.sum_cons]
    rw [List.replicate_add]
    congr 1
    unfold uttframerefs
    rw [List.map_map]
    have : (frameref.chunkindex ∘ fun m =>
        ({ chunkindex := k, utteranceindex := u, frameindex := m } : frameref)) =
        fun _ => k := rfl
    rw [this, rangemap_const]

theorem initframerefs_map (g : List chunk) :
    ∀ k, (initframerefsaux k g).map frameref.chunkindex = ttochunkaux k g := by
  induction g with
  | nil => intro k; rfl
  | cons c rest ih =>
    intro k
    simp only [initframerefsaux, ttochunkaux, List.map_append, ih (k + 1)]
    congr 1
    exact chunkframerefsaux_map k 0 c.chunkdata.utteranceset

theorem ttochunkaux_mem_bounds (g : List chunk) :
    ∀ k0 x, x ∈ ttochunkaux k0 g → k0 ≤ x ∧ x < k0 + g.length := by
  induction g with
  | nil => intro k0 x hx; simp [ttochunkaux] at hx
  | cons c rest ih =>
    intro k0 x hx
    simp only [ttochunkaux, List.mem_append] at hx
    rcases hx with hx | hx
    · have := List.eq_of_mem_replicate hx
      subst this
      simp only [List.length_cons]
      omega
    · have := ih (k0 + 1) x hx
      simp only [List.length_cons]
      omega

theorem initframerefs_length (g : List chunk) :
    (initframerefsaux 0 g).length = (ttochunkaux 0 g).length := by
  have h := congrArg List.length (initframerefs_map g 0)
  simpa using h

theorem initframerefs_allvalid (g : List chunk) (r2 : Nat) (hw : windowscontain g r2) :
    allvalid (framevalidp g r2 (ttochunkaux 0 g)) (initframerefsaux 0 g) := by
  intro t ht
  have hci : ((initframerefsaux 0 g).getD t default).chunkindex
      = (ttochunkaux 0 g).getD t 0 := by
    have hm := getD_map frameref.chunkindex rfl (initframerefsaux 0 g) t
    rw [initframerefs_map g 0] at hm
    exact hm.symm
  have htlen : t < (ttochunkaux 0 g).length := by rw [← initframerefs_length g]; exact ht
  have hmem : (ttochunkaux 0 g).getD t 0 ∈ ttochunkaux 0 g := by
    have := getD_mem (l := ttochunkaux 0 g) (i := t) htlen
    simpa using this
  have hb := ttochunkaux_mem_bounds g 0 _ hmem
  have hcont := hw ((ttochunkaux 0 g).getD t 0) (by omega)
  exact ⟨by rw [hci]; exact hcont.1, by rw [hci]; exact hcont.2⟩

theorem randomizeframerefs_valid (g : List chunk) (r2 sweep sweepts : Nat)
    (hw : windowscontain g r2) :
    allvalid (framevalidp g r2 (ttochunkaux 0 g))
      (randomizeframerefs g r2 sweep sweepts).1 := by
  unfold randomizeframerefs
  exact (foldl_inv_mem
    (P := fun (p : List frameref × Nat) =>
      allvalid (framevalidp g r2 (ttochunkaux 0 g)) p.1
        ∧ p.1.length = (initframerefsaux 0 g).length)
    (fun (b : List frameref × Nat) a ha hb =>
      ⟨fswapretry_preserves g r2 (ttochunkaux 0 g) _ _ a retryfuel b.1 b.2
          (by rw [hb.2]; exact List.mem_range.1 ha) hb.1,
       by rw [fswapretry_length]; exact hb.2⟩)
    ⟨initframerefs_allvalid g r2 hw, rfl⟩).1

/-! Chunk placement and the sliding window computation. -/

theorem placechunks_length : ∀ (cs : List utterancechunkdata) (pb ts : Nat),
    (placechunks cs pb ts).length = cs.length := by
  intro cs
  induction cs with
  | nil => intro pb ts; rfl
  | cons c rest ih => intro pb ts; simp [placechunks, ih]

theorem placechunks_chunkdata : ∀ (cs : List utterancechunkdata) (pb ts k : Nat),
    k < cs.length →
    ((placechunks cs pb ts).getD k default).chunkdata = cs.getD k default := by
  intro cs
  induction cs with
  | nil => intro pb ts k hk; simp at hk
  | cons c rest ih =>
    intro pb ts k hk
    cases k with
    | zero => rfl
    | succ m => exact ih _ _ m (Nat.lt_of_succ_lt_succ hk)

theorem placechunks_head_gts (c : utterancechunkdata) (rest : List utterancechunkdata)
    (pb ts : Nat) : gtsat (placechunks (c :: rest) pb ts) 0 = ts := rfl

theorem placechunks_gts_succ : ∀ (cs : List utterancechunkdata) (pb ts k : Nat),
    k + 1 < cs.length →
    gtsat (placechunks cs pb ts) (k + 1) = gteat (placechunks cs pb ts) k := by
  intro cs
  induction cs with
  | nil => intro pb ts k hk; simp at hk
  | cons c rest ih =>
    intro pb ts k hk
    cases k with
    | zero =>
      cases rest with
      | nil => simp at hk
      | cons d rest2 =>
        show gtsat (placechunks (d :: rest2) _ _) 0 = _
        rw [placechunks_head_gts]
        rfl
    | succ m =>
      exact ih _ _ m (Nat.lt_of_succ_lt_succ hk)

theorem gts_le_gte (g : List chunk) (k : Nat) : gtsat g k ≤ gteat g k :=
  Nat.le_add_right _ _

theorem placechunks_gts_mono (cs : List utterancechunkdata) (pb ts : Nat) :
    ∀ i j, i ≤ j → j < (placechunks cs pb ts).length →
      gtsat (placechunks cs pb ts) i ≤ gtsat (placechunks cs pb ts) j := by
  have step : ∀ d i, i + d < (placechunks cs pb ts).length →
      gtsat (placechunks cs pb ts) i ≤ gtsat (placechunks cs pb ts) (i + d) := by
    intro d
    induction d with
    | zero => intro i _; exact Nat.le_refl _
    | succ m ih =>
      intro i hi
      have hm : i + m < (placechunks cs pb ts).length := by omega
      have h1 := ih i hm
      have h2 : gtsat (placechunks cs pb ts) (i + m + 1)
          = gteat (placechunks cs pb ts) (i + m) := by
        apply placechunks_gts_succ
        rw [← placechunks_length cs pb ts]
        omega
      have h3 := gts_le_gte (placechunks cs pb ts) (i + m)
      have : i + (m + 1) = i + m + 1 := by omega
      rw [this, h2]
      omega
  intro i j hij hj
  have : j = i + (j - i) := by omega
  rw [this]
  exact step (j - i) i (by omega)

theorem placechunks_gte_le_gts (cs : List utterancechunkdata) (pb ts : Nat)
    {i j : Nat} (hij : i < j) (hj : j < (placechunks cs pb ts).length) :
    gteat (placechunks cs pb ts) i ≤ gtsat (placechunks cs pb ts) j := by
  have h1 : gtsat (placechunks cs pb ts) (i + 1) = gteat (placechunks cs pb ts) i := by
    apply placechunks_gts_succ
    rw [← placechunks_length cs pb ts]
    omega
  rw [← h1]
  exact placechunks_gts_mono cs pb ts (i + 1) j (by omega) hj

theorem wbloop_ge (g : List chunk) (r2 target : Nat) :
    ∀ fuel wb, wb ≤ wbloop g r2 target fuel wb := by
  intro fuel
  induction fuel with
  | zero => intro wb; exact Nat.le_refl _
  | succ n ih =>
    intro wb
    rw [wbloop]
    split
    · exact Nat.le_trans (Nat.le_succ wb) (ih (wb + 1))
    · exact Nat.le_refl _

theorem weloop_ge (g : List chunk) (r2 target : Nat) :
    ∀ fuel we, we ≤ weloop g r2 target fuel we := by
  intro fuel
  induction fuel with
  | zero => intro we; exact Nat.le_refl _
  | succ n ih =>
    intro we
    rw [weloop]
    split
    · exact Nat.le_trans (Nat.le_succ we) (ih (we + 1))
    · exact Nat.le_refl _

theorem weloop_le_len (g : List chunk) (r2 target : Nat) :
    ∀ fuel we, we ≤ g.length → weloop g r2 target fuel we ≤ g.length := by
  intro fuel
  induction fuel with
  | zero => intro we h; exact h
  | succ n ih =>
    intro we h
    rw [weloop]
    split
    · next hc => exact ih (we + 1) hc.1
    · exact h

theorem wbloop_spec (g : List chunk) (r2 k : Nat) :
    ∀ fuel wb, wb ≤ k → k ≤ wb + fuel →
      wbloop g r2 (gtsat g k) fuel wb ≤ k ∧
      gtsat g k - gtsat g (wbloop g r2 (gtsat g k) fuel wb) ≤ r2 := by
  intro fuel
  induction fuel with
  | zero =>
    intro wb hwb hfuel
    have : wb = k := by omega
    subst this
    exact ⟨Nat.le_refl _, by rw [wbloop]; omega⟩
  | succ n ih =>
    intro wb hwb hfuel
    rw [wbloop]
    by_cases hc : r2 < gtsat g k - gtsat g wb
    · rw [if_pos hc]
      have hne : wb ≠ k := by
        intro he
        subst he
        omega
      exact ih (wb + 1) (by omega) (by omega)
    · rw [if_neg hc]
      exact ⟨hwb, by omega⟩

theorem weloop_gt_k (g : List chunk) (r2 k : Nat) (hk : k < g.length)
    (hcond : ∀ j, j ≤ k → gteat g j - gtsat g k < r2) :
    ∀ fuel we, k + 1 ≤ we + fuel → k < weloop g r2 (gtsat g k) fuel we := by
  intro fuel
  induction fuel with
  | zero =>
    intro we hfuel
    rw [weloop]
    omega
  | succ n ih =>
    intro we hfuel
    by_cases hwk : k < we
    · exact Nat.lt_of_lt_of_le hwk (weloop_ge g r2 (gtsat g k) (n + 1) we)
    · have hwe : we ≤ k := by omega
      rw [weloop]
      rw [if_pos ⟨by omega, hcond we hwe⟩]
      exact ih (we + 1) (by omega)

theorem weloop_rightbound (g : List chunk) (r2 k : Nat) :
    ∀ fuel we, gteat g (we - 1) - gtsat g k < r2 →
      gteat g (weloop g r2 (gtsat g k) fuel we - 1) - gtsat g k < r2 := by
  intro fuel
  induction fuel with
  | zero => intro we h; exact h
  | succ n ih =>
    intro we h
    rw [weloop]
    split
    · next hc => exact ih (we + 1) (by simpa using hc.2)
    · exact h

/-- Monotonicity of the sliding windows: both endpoints are nondecreasing in the chunk
index, because each window starts from the window of the left neighbor and the two
loops only move their pointers to the right. -/
theorem windowat_mono (g : List chunk) (r2 k : Nat) :
    (windowat g r2 k).1 ≤ (windowat g r2 (k + 1)).1 ∧
      (windowat g r2 k).2 ≤ (windowat g r2 (k + 1)).2 := by
  show (windowat g r2 k).1 ≤ (windowat g r2 (Nat.succ k)).1 ∧
      (windowat g r2 k).2 ≤ (windowat g r2 (Nat.succ k)).2
  rw [windowat]
  exact ⟨wbloop_ge g r2 _ g.length _, weloop_ge g r2 _ g.length _⟩

/-- Core window facts under the sane corpus condition that every chunk is shorter than
half the randomization range: the window of chunk k contains k, stays inside the
chunk sequence, and both time distances from the chunk start stay within half the
range. -/
theorem window_spec (cs : List utterancechunkdata) (ts r2 : Nat)
    (H : ∀ c ∈ cs, c.totalframes < r2) :
    ∀ k, k < (placechunks cs 0 ts).length →
      (windowat (placechunks cs 0 ts) r2 k).1 ≤ k ∧
      k < (windowat (placechunks cs 0 ts) r2 k).2 ∧
      (windowat (placechunks cs 0 ts) r2 k).2 ≤ (placechunks cs 0 ts).length ∧
      gtsat (placechunks cs 0 ts) k
          - gtsat (placechunks cs 0 ts) (windowat (placechunks cs 0 ts) r2 k).1 ≤ r2 ∧
      gteat (placechunks cs 0 ts) ((windowat (placechunks cs 0 ts) r2 k).2 - 1)
          - gtsat (placechunks cs 0 ts) k < r2 := by
  set g := placechunks cs 0 ts with hg
  have hnum : ∀ k, k < g.length → gteat g k - gtsat g k < r2 := by
    intro k hk
    have hlen : k < cs.length := by rw [← placechunks_length cs 0 ts]; exact hk
    have hcd := placechunks_chunkdata cs 0 ts k hlen
    have hmem : cs.getD k default ∈ cs := getD_mem hlen
    have hH := H _ hmem
    have : gteat g k - gtsat g k = (cs.getD k default).totalframes := by
      show (g.getD k default).globalte - (g.getD k default).globalts = _
      rw [chunk.globalte]
      have : (g.getD k default).numframes = (cs.getD k default).totalframes := by
        rw [chunk.numframes, hg, hcd]
      omega
    omega
  intro k
  induction k with
  | zero =>
    intro h0
    have hwb := wbloop_spec g r2 0 g.length 0 (Nat.le_refl 0) (by omega)
    have hwe : 0 < weloop g r2 (gtsat g 0) g.length 1 :=
      Nat.lt_of_lt_of_le (Nat.zero_lt_one) (weloop_ge g r2 _ g.length 1)
    have hwelen : weloop g r2 (gtsat g 0) g.length 1 ≤ g.length :=
      weloop_le_len g r2 _ g.length 1 (by omega)
    have hright : gteat g (weloop g r2 (gtsat g 0) g.length 1 - 1) - gtsat g 0 < r2 := by
      apply weloop_rightbound g r2 0 g.length 1
      simpa using hnum 0 h0
    exact ⟨hwb.1, hwe, hwelen, hwb.2, hright⟩
  | succ k ih =>
    intro hk1
    have hk : k < g.length := by omega
    obtain ⟨iwb, iwe, iwelen, _, iright⟩ := ih hk
    have hr2pos : 0 < r2 := by
      have := hnum k hk
      omega
    show (wbloop g r2 (gtsat g (k + 1)) g.length (windowat g r2 k).1 ≤ k + 1 ∧ _)
    rw [windowat]
    refine ⟨?_, ?_, ?_, ?_, ?_⟩
    · exact (wbloop_spec g r2 (k + 1) g.length (windowat g r2 k).1 (by omega) (by omega)).1
    · apply weloop_gt_k g r2 (k + 1) hk1
      · intro j hj
        by_cases hjk : j = k + 1
        · subst hjk
          exact hnum (k + 1) hk1
        · have hjlt : j < k + 1 := by omega
          have := placechunks_gte_le_gts cs 0 ts (i := j) (j := k + 1) hjlt
            (by rw [← hg]; exact hk1)
          rw [← hg] at this
          omega
      · omega
    · exact weloop_le_len g r2 _ g.length _ iwelen
    · exact (wbloop_spec g r2 (k + 1) g.length (windowat g r2 k).1 (by omega) (by omega)).2
    · apply weloop_rightbound g r2 (k + 1) g.length (windowat g r2 k).2
      have hmono := placechunks_gts_mono cs 0 ts k (k + 1) (by omega)
        (by rw [← hg]; exact hk1)
      rw [← hg] at hmono
      omega

theorem windows_contain_of_short_chunks (cs : List utterancechunkdata) (ts r2 : Nat)
    (H : ∀ c ∈ cs, c.totalframes < r2) :
    windowscontain (placechunks cs 0 ts) r2 := by
  intro k hk
  have h := window_spec cs ts r2 H k hk
  exact ⟨h.1, h.2.1⟩

/-- C2: after the randomization for a sweep is rebuilt, every utterance position in
utterance mode and every frame position in frame mode holds an item whose randomized
chunk index lies within the window of the defining chunk of that position, the chunk
that owned the position on the unrandomized timeline; the constrained swap loops with
their bidirectional admissibility checks preserve this invariant of the initial one to
one assignment. Stated for any corpus whose chunks are shorter than half the
randomization range, the condition under which the initial assignment is window valid
(the source asserts it and verifies the result, aborting otherwise), and whose indices
fit the frameref bit fields, the domain on which checkoverflow lets a frame
randomization complete. -/
theorem C2_window_validity (cs : List utterancechunkdata) (ts range sweep : Nat)
    (H : ∀ c ∈ cs, c.totalframes < range / 2)
    (_hfit : framerefsfit (placechunks cs 0 ts) = true) :
    allvalid
        (uttvalidp (placechunks cs 0 ts) (range / 2) (pcwof (placechunks cs 0 ts)))
        (randomizeutterancerefs (placechunks cs 0 ts) (range / 2) sweep).1 ∧
      allvalid
        (framevalidp (placechunks cs 0 ts) (range / 2)
          (ttochunkaux 0 (placechunks cs 0 ts)))
        (randomizeframerefs (placechunks cs 0 ts) (range / 2) sweep ts).1 := by
  have hw := windows_contain_of_short_chunks cs ts (range / 2) H
  exact ⟨randomizeutterancerefs_valid _ _ sweep hw,
    randomizeframerefs_valid _ _ sweep ts hw⟩

theorem C2_window_validity_witness :
    ((∀ c ∈ ([⟨[2, 3]⟩, ⟨[2]⟩] : List utterancechunkdata), c.totalframes < 1000 / 2) ∧
        framerefsfit (placechunks [⟨[2, 3]⟩, ⟨[2]⟩] 0 0) = true) ∧
      (allvalid
          (uttvalidp (placechunks [⟨[2, 3]⟩, ⟨[2]⟩] 0 0) (1000 / 2)
            (pcwof (placechunks [⟨[2, 3]⟩, ⟨[2]⟩] 0 0)))
          (randomizeutterancerefs (placechunks [⟨[2, 3]⟩, ⟨[2]⟩] 0 0) (1000 / 2) 0).1 ∧
        allvalid
          (framevalidp (placechunks [⟨[2, 3]⟩, ⟨[2]⟩] 0 0) (1000 / 2)
            (ttochunkaux 0 (placechunks [⟨[2, 3]⟩, ⟨[2]⟩] 0 0)))
          (randomizeframerefs (placechunks [⟨[2, 3]⟩, ⟨[2]⟩] 0 0) (1000 / 2) 0 0).1) :=
  ⟨⟨by decide, by decide⟩,
    C2_window_validity [⟨[2, 3]⟩, ⟨[2]⟩] 0 1000 0 (by decide) (by decide)⟩

/-- C3 as stated is false on the code: with two chunks of one hundred frames each and
randomizationrange ten, the sliding construction yields the empty window [1, 1) for
chunk one, which does not contain the chunk itself. -/
theorem C3_counterexample :
    ¬ (1 < (windowat (placechunks [⟨[100]⟩, ⟨[100]⟩] 0 0) (10 / 2) 1).2) := by
  decide

/-- C3 amended: provided every chunk is shorter than half the randomization range, every
window [windowbegin, windowend) is a contiguous nonempty range of randomized chunk
indices containing its own chunk, both endpoints are nondecreasing in the chunk index,
and the time extent is bounded: each side within randomizationrange / 2 and the whole
window within randomizationrange. -/
theorem C3_amended_windows (cs : List utterancechunkdata) (ts range : Nat)
    (H : ∀ c ∈ cs, c.totalframes < range / 2) :
    ∀ k, k < (placechunks cs 0 ts).length →
      ((windowat (placechunks cs 0 ts) (range / 2) k).1 ≤ k ∧
        k < (windowat (placechunks cs 0 ts) (range / 2) k).2 ∧
        (windowat (placechunks cs 0 ts) (range / 2) k).2 ≤ (placechunks cs 0 ts).length) ∧
      ((windowat (placechunks cs 0 ts) (range / 2) k).1
          ≤ (windowat (placechunks cs 0 ts) (range / 2) (k + 1)).1 ∧
        (windowat (placechunks cs 0 ts) (range / 2) k).2
          ≤ (windowat (placechunks cs 0 ts) (range / 2) (k + 1)).2) ∧
      gtsat (placechunks cs 0 ts) k
          - gtsat (placechunks cs 0 ts) (windowat (placechunks cs 0 ts) (range / 2) k).1
          ≤ range / 2 ∧
      gteat (placechunks cs 0 ts) ((windowat (placechunks cs 0 ts) (range / 2) k).2 - 1)
          - gtsat (placechunks cs 0 ts) k ≤ range / 2 ∧
      gteat (placechunks cs 0 ts) ((windowat (placechunks cs 0 ts) (range / 2) k).2 - 1)
          - gtsat (placechunks cs 0 ts) (windowat (placechunks cs 0 ts) (range / 2) k).1
          ≤ range := by
  intro k hk
  obtain ⟨h1, h2, h3, h4, h5⟩ := window_spec cs ts (range / 2) H k hk
  refine ⟨⟨h1, h2, h3⟩, windowat_mono _ _ k, h4, by omega, by omega⟩

theorem C3_amended_windows_witness :
    (∀ c ∈ ([⟨[2, 3]⟩, ⟨[2]⟩] : List utterancechunkdata), c.totalframes < 1000 / 2) ∧
      (1 < (placechunks [⟨[2, 3]⟩, ⟨[2]⟩] 0 0).length) ∧
      ((windowat (placechunks [⟨[2, 3]⟩, ⟨[2]⟩] 0 0) (1000 / 2) 1).1 ≤ 1 ∧
        1 < (windowat (placechunks [⟨[2, 3]⟩, ⟨[2]⟩] 0 0) (1000 / 2) 1).2 ∧
        (windowat (placechunks [⟨[2, 3]⟩, ⟨[2]⟩] 0 0) (1000 / 2) 1).2
          ≤ (placechunks [⟨[2, 3]⟩, ⟨[2]⟩] 0 0).length) ∧
      ((windowat (placechunks [⟨[2, 3]⟩, ⟨[2]⟩] 0 0) (1000 / 2) 1).1
          ≤ (windowat (placechunks [⟨[2, 3]⟩, ⟨[2]⟩] 0 0) (1000 / 2) 2).1 ∧
        (windowat (placechunks [⟨[2, 3]⟩, ⟨[2]⟩] 0 0) (1000 / 2) 1).2
          ≤ (windowat (placechunks [⟨[2, 3]⟩, ⟨[2]⟩] 0 0) (1000 / 2) 2).2) ∧
      gtsat (placechunks [⟨[2, 3]⟩, ⟨[2]⟩] 0 0) 1
          - gtsat (placechunks [⟨[2, 3]⟩, ⟨[2]⟩] 0 0)
              (windowat (placechunks [⟨[2, 3]⟩, ⟨[2]⟩] 0 0) (1000 / 2) 1).1 ≤ 1000 / 2 ∧
      gteat (placechunks [⟨[2, 3]⟩, ⟨[2]⟩] 0 0)
            ((windowat (placechunks [⟨[2, 3]⟩, ⟨[2]⟩] 0 0) (1000 / 2) 1).2 - 1)
          - gtsat (placechunks [⟨[2, 3]⟩, ⟨[2]⟩] 0 0) 1 ≤ 1000 / 2 ∧
      gteat (placechunks [⟨[2, 3]⟩, ⟨[2]⟩] 0 0)
            ((windowat (placechunks [⟨[2, 3]⟩, ⟨[2]⟩] 0 0) (1000 / 2) 1).2 - 1)
          - gtsat (placechunks [⟨[2, 3]⟩, ⟨[2]⟩] 0 0)
              (windowat (placechunks [⟨[2, 3]⟩, ⟨[2]⟩] 0 0) (1000 / 2) 1).1 ≤ 1000 :=
  ⟨by decide, by decide,
    C3_amended_windows [⟨[2, 3]⟩, ⟨[2]⟩] 0 1000 (by decide) 1 (by decide)⟩

/-- C4: the rebuild for a sweep is a function of the corpus, the randomization range,
the mode and the sweep number alone: two forced rebuilds from arbitrary previous cached
states (in particular different previous generator states and caches) and from any two
global time stamps of the same sweep produce identical chunk order, windows and
position or frame permutations, because every random draw is reseeded from the sweep
number; moreover a second call for the same sweep leaves the cached state untouched. -/
theorem C4_determinism (s1 s2 : sourcestate) (g1 g2 : Nat)
    (hc : s1.allchunks = s2.allchunks)
    (hr : s1.randomizationrange = s2.randomizationrange)
    (hm : s1.framemode = s2.framemode)
    (h1 : ¬ s1.currentsweep = some (g1 / totalframesof s1.allchunks))
    (h2 : ¬ s2.currentsweep = some (g2 / totalframesof s2.allchunks))
    (hs : g1 / totalframesof s1.allchunks = g2 / totalframesof s2.allchunks) :
    (lazyrandomization s1 g1).rnd = (lazyrandomization s2 g2).rnd ∧
      lazyrandomization (lazyrandomization s1 g1) g1 = lazyrandomization s1 g1 := by
  constructor
  · have hre : rebuildrandomization s1.allchunks s1.randomizationrange s1.framemode
        (g1 / totalframesof s1.allchunks)
        = rebuildrandomization s2.allchunks s2.randomizationrange s2.framemode
        (g2 / totalframesof s2.allchunks) := by
      rw [hc] at hs ⊢
      rw [hr, hm, hs]
    simp only [lazyrandomization, if_neg h1, if_neg h2]
    exact hre
  · simp only [lazyrandomization, if_neg h1]
    simp

theorem C4_determinism_witness :
    (lazyrandomization ⟨[⟨[2, 3]⟩, ⟨[2]⟩], 1000, false, none, ⟨[], [], [], [], 0⟩⟩ 2).rnd
        = (lazyrandomization
            ⟨[⟨[2, 3]⟩, ⟨[2]⟩], 1000, false, some 3, ⟨[], [], [], [], 999⟩⟩ 6).rnd ∧
      lazyrandomization
          (lazyrandomization ⟨[⟨[2, 3]⟩, ⟨[2]⟩], 1000, false, none, ⟨[], [], [], [], 0⟩⟩ 2) 2
        = lazyrandomization ⟨[⟨[2, 3]⟩, ⟨[2]⟩], 1000, false, none, ⟨[], [], [], [], 0⟩⟩ 2 :=
  C4_determinism _ _ 2 6 rfl rfl rfl (by decide) (by decide) (by decide)

/-! The utterance mode getbatch loop. -/

theorem sumnf_self (nf : Nat → Nat) (a : Nat) : sumnf nf a a = 0 := by
  simp [sumnf]

theorem sumnf_succ_left (nf : Nat → Nat) {a b : Nat} (h : a < b) :
    sumnf nf a b = nf a + sumnf nf (a + 1) b := by
  have hm : b - a = (b - (a + 1)) + 1 := by omega
  rw [sumnf, hm, List.range_succ_eq_map, List.map_cons, List.sum_cons, List.map_map]
  have hfun : ((fun d => nf (a + d)) ∘ Nat.succ) = fun d => nf (a + 1 + d) := by
    funext d
    show nf (a + (d + 1)) = nf (a + 1 + d)
    congr 1
    omega
  rw [hfun]
  rfl

theorem greedyloop_spec (nf : Nat → Nat) (n req : Nat) :
    ∀ (fuel epos mb : Nat), n ≤ epos + fuel →
      epos ≤ (greedyloop nf n req fuel epos mb).1 ∧
      (greedyloop nf n req fuel epos mb).2
          = mb + sumnf nf epos (greedyloop nf n req fuel epos mb).1 ∧
      ((greedyloop nf n req fuel epos mb).1 < n →
        req ≤ (greedyloop nf n req fuel epos mb).2
            + nf (greedyloop nf n req fuel epos mb).1) ∧
      (∀ p, epos ≤ p → p < (greedyloop nf n req fuel epos mb).1 →
        mb + sumnf nf epos p + nf p < req) := by
  intro fuel
  induction fuel with
  | zero =>
    intro epos mb hfuel
    rw [greedyloop]
    refine ⟨Nat.le_refl _, ?_, ?_, ?_⟩
    · show mb = mb + sumnf nf epos epos
      rw [sumnf_self]
      omega
    · intro h
      exact absurd (show epos < n from h) (by omega)
    · intro p hp1 hp2
      exact absurd (show p < epos from hp2) (by omega)
  | succ m ih =>
    intro epos mb hfuel
    rw [greedyloop]
    by_cases hc : epos < n ∧ mb + nf epos < req
    · rw [if_pos hc]
      obtain ⟨ih1, ih2, ih3, ih4⟩ := ih (epos + 1) (mb + nf epos) (by omega)
      refine ⟨by omega, ?_, ih3, ?_⟩
      · rw [ih2, sumnf_succ_left nf (show epos < (greedyloop nf n req m (epos + 1) (mb + nf epos)).1 by omega)]
        omega
      · intro p hp1 hp2
        by_cases hpe : p = epos
        · subst hpe
          rw [sumnf_self]
          omega
        · have h4 := ih4 p (by omega) hp2
          rw [sumnf_succ_left nf (show epos < p by omega)]
          omega
    · rw [if_neg hc]
      refine ⟨Nat.le_refl _, ?_, ?_, ?_⟩
      · show mb = mb + sumnf nf epos epos
        rw [sumnf_self]
        omega
      · intro h
        have hepos : epos < n := h
        show req ≤ mb + nf epos
        by_contra hlt
        exact hc ⟨hepos, by omega⟩
      · intro p hp1 hp2
        exact absurd (show p < epos from hp2) (by omega)

theorem greedyloop_stop (nf : Nat → Nat) (n req : Nat) (h : req ≤ mb) :
    ∀ fuel epos, greedyloop nf n req fuel epos mb = (epos, mb) := by
  intro fuel
  cases fuel with
  | zero => intro epos; rfl
  | succ m =>
    intro epos
    rw [greedyloop, if_neg]
    intro hc
    omega

theorem finduttpos_lt (gts : Nat) :
    ∀ (placed : List placedref) (spos : Nat),
      finduttpos gts placed = some spos → spos < placed.length := by
  intro placed
  induction placed with
  | nil => intro spos h; simp [finduttpos] at h
  | cons p rest ih =>
    intro spos h
    rw [finduttpos] at h
    by_cases hp : p.globalts = gts
    · rw [if_pos hp] at h
      simp only [Option.some.injEq] at h
      simp only [List.length_cons]
      omega
    · rw [if_neg hp] at h
      cases hr : finduttpos gts rest with
      | none =>
        rw [hr] at h
        exact Option.noConfusion h
      | some q =>
        rw [hr] at h
        have hq : q + 1 = spos := Option.some.inj h
        have := ih q hr
        simp only [List.length_cons]
        omega

theorem finduttpos_none (gts : Nat) :
    ∀ (placed : List placedref), (∀ p ∈ placed, p.globalts ≠ gts) →
      finduttpos gts placed = none := by
  intro placed
  induction placed with
  | nil => intro _; rfl
  | cons p rest ih =>
    intro h
    rw [finduttpos, if_neg (h p (List.mem_cons_self _ _)),
      ih (fun q hq => h q (List.mem_cons_of_mem _ hq))]
    rfl

theorem getbatchut_ok (placed : List placedref) (gts req spos epos mb : Nat)
    (h : getbatchut placed gts req = Except.ok (spos, epos, mb)) :
    finduttpos gts placed = some spos ∧
      (getbatchrange placed req spos).1 = epos ∧
      (getbatchrange placed req spos).2 = mb := by
  unfold getbatchut at h
  cases hf : finduttpos gts placed with
  | none => rw [hf] at h; simp at h
  | some s =>
    rw [hf] at h
    simp only [Except.ok.injEq, Prod.mk.injEq] at h
    obtain ⟨rfl, h2, h3⟩ := h
    exact ⟨rfl, h2, h3⟩

/-- C1 fails as stated: for the corpus of three utterances of one hundred, one hundred
fifty and eighty frames in one chunk (positions in that order), getbatch at global
time zero with two hundred frames requested returns one utterance of one hundred
frames, not the first two utterances with two hundred fifty frames, because the source
loop stops before any addition that would reach or exceed the request even though the
request is not yet met; the loop modelled from the spec wording does return the
claimed pair. -/
theorem C1_counterexample :
    getbatchut [⟨0, 0, 100, 0⟩, ⟨0, 1, 150, 100⟩, ⟨0, 2, 80, 250⟩] 0 200
        = Except.ok (0, 1, 100) ∧
      ¬ getbatchut [⟨0, 0, 100, 0⟩, ⟨0, 1, 150, 100⟩, ⟨0, 2, 80, 250⟩] 0 200
          = Except.ok (0, 2, 250) ∧
      specgreedyloop
          (fun p => (([⟨0, 0, 100, 0⟩, ⟨0, 1, 150, 100⟩, ⟨0, 2, 80, 250⟩] :
            List placedref).getD p default).numframes) 3 200 3 1 100 = (2, 250) := by
  refine ⟨by decide, by decide, by decide⟩

/-- C1 amended: in utterance mode getbatch starts at the position matching globalts and
greedily adds consecutive utterance positions while the running total plus the next
frame count stays strictly below framesrequested; it stops before the first utterance
whose addition would reach or exceed the budget even when the budget is not met yet,
so for the one hundred, one hundred fifty, eighty corpus a request of two hundred
frames at global time zero returns just the first utterance (one hundred frames). -/
theorem C1_amended_greedy (placed : List placedref) (gts req spos epos mb : Nat)
    (h : getbatchut placed gts req = Except.ok (spos, epos, mb)) :
    spos < epos ∧
      mb = sumnf (fun p => (placed.getD p default).numframes) spos epos ∧
      (epos < placed.length → req ≤ mb + (placed.getD epos default).numframes) ∧
      (∀ p, spos < p → p < epos →
        sumnf (fun p2 => (placed.getD p2 default).numframes) spos p
            + (placed.getD p default).numframes < req) := by
  obtain ⟨hf, he, hm⟩ := getbatchut_ok placed gts req spos epos mb h
  rw [getbatchrange] at he hm
  obtain ⟨h1, h2, h3, h4⟩ := greedyloop_spec
    (fun p => (placed.getD p default).numframes) placed.length req placed.length
    (spos + 1) ((placed.getD spos default).numframes) (by omega)
  rw [he] at h1 h2 h3 h4
  rw [hm] at h2 h3
  have hse : spos < epos := by omega
  refine ⟨hse, ?_, ?_, ?_⟩
  · rw [h2, sumnf_succ_left _ hse]
  · intro hlt
    exact h3 hlt
  · intro p hp1 hp2
    have := h4 p (by omega) hp2
    rw [sumnf_succ_left _ (show spos < p by omega)]
    omega

theorem C1_amended_greedy_witness :
    getbatchut [⟨0, 0, 100, 0⟩, ⟨0, 1, 150, 100⟩, ⟨0, 2, 80, 250⟩] 0 200
        = Except.ok (0, 1, 100) ∧
      (0 < 1 ∧
        100 = sumnf (fun p => (([⟨0, 0, 100, 0⟩, ⟨0, 1, 150, 100⟩, ⟨0, 2, 80, 250⟩] :
          List placedref).getD p default).numframes) 0 1 ∧
        (1 < ([⟨0, 0, 100, 0⟩, ⟨0, 1, 150, 100⟩, ⟨0, 2, 80, 250⟩] :
            List placedref).length →
          200 ≤ 100 + (([⟨0, 0, 100, 0⟩, ⟨0, 1, 150, 100⟩, ⟨0, 2, 80, 250⟩] :
            List placedref).getD 1 default).numframes) ∧
        (∀ p, 0 < p → p < 1 →
          sumnf (fun p2 => (([⟨0, 0, 100, 0⟩, ⟨0, 1, 150, 100⟩, ⟨0, 2, 80, 250⟩] :
              List placedref).getD p2 default).numframes) 0 p
              + (([⟨0, 0, 100, 0⟩, ⟨0, 1, 150, 100⟩, ⟨0, 2, 80, 250⟩] :
                List placedref).getD p default).numframes < 200)) :=
  ⟨by decide,
    C1_amended_greedy [⟨0, 0, 100, 0⟩, ⟨0, 1, 150, 100⟩, ⟨0, 2, 80, 250⟩] 0 200 0 1 100
      (by decide)⟩

/-- C5: whenever utterance mode getbatch succeeds, it returns at least one utterance,
the returned frame count is at least the frame count of the utterance at the requested
start, and when that utterance alone meets or exceeds framesrequested it is returned
alone and in full, so the returned frame count may exceed framesrequested. -/
theorem C5_minimum_batch (placed : List placedref) (gts req spos epos mb : Nat)
    (h : getbatchut placed gts req = Except.ok (spos, epos, mb)) :
    spos < epos ∧
      (placed.getD spos default).numframes ≤ mb ∧
      (req ≤ (placed.getD spos default).numframes →
        epos = spos + 1 ∧ mb = (placed.getD spos default).numframes) := by
  obtain ⟨hf, he, hm⟩ := getbatchut_ok placed gts req spos epos mb h
  rw [getbatchrange] at he hm
  obtain ⟨h1, h2, h3, h4⟩ := greedyloop_spec
    (fun p => (placed.getD p default).numframes) placed.length req placed.length
    (spos + 1) ((placed.getD spos default).numframes) (by omega)
  rw [he] at h1 h2
  rw [hm] at h2
  refine ⟨by omega, by omega, ?_⟩
  intro hreq
  have hstop := greedyloop_stop (fun p => (placed.getD p default).numframes)
    placed.length req hreq placed.length (spos + 1)
  rw [hstop] at he hm
  exact ⟨he.symm, hm.symm⟩

theorem C5_minimum_batch_witness :
    getbatchut [⟨0, 0, 150, 0⟩, ⟨0, 1, 80, 150⟩] 0 1 = Except.ok (0, 1, 150) ∧
      (0 < 1 ∧
        (([⟨0, 0, 150, 0⟩, ⟨0, 1, 80, 150⟩] : List placedref).getD 0 default).numframes
            ≤ 150 ∧
        (1 ≤ (([⟨0, 0, 150, 0⟩, ⟨0, 1, 80, 150⟩] :
            List placedref).getD 0 default).numframes →
          1 = 0 + 1 ∧
            150 = (([⟨0, 0, 150, 0⟩, ⟨0, 1, 80, 150⟩] :
              List placedref).getD 0 default).numframes)) :=
  ⟨by decide, C5_minimum_batch [⟨0, 0, 150, 0⟩, ⟨0, 1, 80, 150⟩] 0 1 0 1 150 (by decide)⟩

/-- C6: an utterance mode getbatch call whose globalts does not exactly equal the
recorded start time of some randomized utterance position raises the usage error; no
batch is returned. -/
theorem C6_invalid_globalts (placed : List placedref) (gts req : Nat)
    (h : ∀ p ∈ placed, p.globalts ≠ gts) :
    getbatchut placed gts req
      = Except.error "getbatch: invalid globalts parameter; must match an existing utterance boundary" := by
  unfold getbatchut
  rw [finduttpos_none gts placed h]

theorem C6_invalid_globalts_witness :
    getbatchut [⟨0, 0, 100, 0⟩, ⟨0, 1, 150, 100⟩, ⟨0, 2, 80, 250⟩] 50 200
      = Except.error "getbatch: invalid globalts parameter; must match an existing utterance boundary" :=
  C6_invalid_globalts [⟨0, 0, 100, 0⟩, ⟨0, 1, 150, 100⟩, ⟨0, 2, 80, 250⟩] 50 200
    (by decide)

/-! firstvalidglobalts. -/

theorem sortedstarts_tail (p : placedref) (rest : List placedref)
    (hs : sortedstarts (p :: rest) = true) : sortedstarts rest = true := by
  cases rest with
  | nil => rfl
  | cons q rest2 =>
    rw [sortedstarts] at hs
    simp only [Bool.and_eq_true] at hs
    exact hs.2

theorem sorted_head_le :
    ∀ (rest : List placedref) (p : placedref),
      sortedstarts (p :: rest) = true → ∀ q ∈ rest, p.globalts ≤ q.globalts := by
  intro rest
  induction rest with
  | nil => intro p _ q hq; simp at hq
  | cons q2 rest2 ih =>
    intro p hs q hq
    rw [sortedstarts] at hs
    simp only [Bool.and_eq_true, decide_eq_true_eq] at hs
    rcases List.mem_cons.1 hq with rfl | hq2
    · exact hs.1
    · exact Nat.le_trans hs.1 (ih q2 hs.2 q hq2)

theorem fvscan_min (gts : Nat) :
    ∀ (placed : List placedref), sortedstarts placed = true →
      (∃ p ∈ placed, gts ≤ p.globalts) →
      ∃ p ∈ placed, fvscan gts placed = p.globalts ∧ gts ≤ p.globalts ∧
        ∀ q ∈ placed, gts ≤ q.globalts → p.globalts ≤ q.globalts := by
  intro placed
  induction placed with
  | nil => intro _ hex; simp at hex
  | cons p rest ih =>
    intro hs hex
    cases rest with
    | nil =>
      have hp : gts ≤ p.globalts := by
        rcases hex with ⟨q, hq, hle⟩
        rcases List.mem_singleton.1 hq with rfl
        exact hle
      refine ⟨p, List.mem_singleton.2 rfl, ?_, hp, ?_⟩
      · show fvscan gts [p] = p.globalts
        rw [fvscan, if_pos hp]
      · intro q hq _
        rcases List.mem_singleton.1 hq with rfl
        exact Nat.le_refl _
    | cons q2 rest2 =>
      by_cases hp : gts ≤ p.globalts
      · refine ⟨p, List.mem_cons_self _ _, ?_, hp, ?_⟩
        · show fvscan gts (p :: q2 :: rest2) = p.globalts
          rw [fvscan, if_pos hp]
        · intro q hq _
          rcases List.mem_cons.1 hq with rfl | hq2
          · exact Nat.le_refl _
          · exact sorted_head_le _ p hs q hq2
      · have hex2 : ∃ r ∈ q2 :: rest2, gts ≤ r.globalts := by
          rcases hex with ⟨r, hr, hler⟩
          rcases List.mem_cons.1 hr with rfl | hr2
          · exact absurd hler hp
          · exact ⟨r, hr2, hler⟩
        obtain ⟨r, hrmem, hre, hrge, hrmin⟩ := ih (sortedstarts_tail p _ hs) hex2
        refine ⟨r, List.mem_cons_of_mem _ hrmem, ?_, hrge, ?_⟩
        · show fvscan gts (p :: q2 :: rest2) = r.globalts
          rw [fvscan, if_neg hp]
          exact hre
        · intro q hq hqge
          rcases List.mem_cons.1 hq with rfl | hq2
          · exact absurd hqge hp
          · exact hrmin q hq2 hqge

theorem fvscan_past (gts : Nat) :
    ∀ (placed : List placedref), placed ≠ [] →
      (∀ p ∈ placed, p.globalts < gts) →
      fvscan gts placed = (placed.getLastD default).globalte := by
  intro placed
  induction placed with
  | nil => intro h; exact absurd rfl h
  | cons p rest ih =>
    intro _ hall
    cases rest with
    | nil =>
      show fvscan gts [p] = _
      rw [fvscan, if_neg (Nat.not_le.2 (hall p (List.mem_cons_self _ _)))]
      rfl
    | cons q2 rest2 =>
      have h1 : ¬ gts ≤ p.globalts := Nat.not_le.2 (hall p (List.mem_cons_self _ _))
      show fvscan gts (p :: q2 :: rest2) = _
      rw [fvscan, if_neg h1,
        ih (List.cons_ne_nil _ _) (fun r hr => hall r (List.mem_cons_of_mem _ hr))]
      rw [List.getLastD_cons, List.getLastD_cons, List.getLastD_cons]

/-- The placement loop records nondecreasing start times: each position starts where
the previous one ended. -/
theorem placerefs_sorted (g : List chunk) :
    ∀ (refs : List utteranceref) (t0 : Nat),
      sortedstarts (placerefs g refs t0) = true := by
  intro refs
  induction refs with
  | nil => intro t0; rfl
  | cons u rest ih =>
    intro t0
    cases rest with
    | nil => rfl
    | cons v rest2 =>
      rw [placerefs]
      show sortedstarts (_ :: placerefs g (v :: rest2) _) = true
      rw [placerefs]
      rw [sortedstarts]
      simp only [Bool.and_eq_true, decide_eq_true_eq]
      constructor
      · show t0 ≤ t0 + _
        omega
      · have := ih (t0 + (g.getD u.chunkindex default).chunkdata.numframes u.utteranceindex)
        rw [placerefs] at this
        exact this

/-- C7: firstvalidglobalts returns its input unchanged in frame mode; in utterance mode
it returns the smallest recorded utterance start at or after the requested value, and
the end time of the last randomized utterance when the request falls past every
recorded start. Stated over any position list with nondecreasing recorded starts, the
shape the placement loop always produces (placerefs_sorted). -/
theorem C7_firstvalidglobalts (placed : List placedref) (gts : Nat)
    (hs : sortedstarts placed = true) (hne : placed ≠ []) :
    firstvalidglobalts true placed gts = gts ∧
      ((∃ p ∈ placed, gts ≤ p.globalts) →
        ∃ p ∈ placed, firstvalidglobalts false placed gts = p.globalts ∧
          gts ≤ p.globalts ∧
          ∀ q ∈ placed, gts ≤ q.globalts → p.globalts ≤ q.globalts) ∧
      ((∀ p ∈ placed, p.globalts < gts) →
        firstvalidglobalts false placed gts = (placed.getLastD default).globalte) := by
  refine ⟨rfl, ?_, ?_⟩
  · intro hex
    obtain ⟨p, hmem, he, hge, hmin⟩ := fvscan_min gts placed hs hex
    exact ⟨p, hmem, he, hge, hmin⟩
  · intro hall
    exact fvscan_past gts placed hne hall

theorem C7_firstvalidglobalts_witness :
    sortedstarts [⟨0, 0, 100, 0⟩, ⟨0, 1, 150, 100⟩, ⟨0, 2, 80, 250⟩] = true ∧
      (firstvalidglobalts true [⟨0, 0, 100, 0⟩, ⟨0, 1, 150, 100⟩, ⟨0, 2, 80, 250⟩] 120
          = 120 ∧
        ((∃ p ∈ ([⟨0, 0, 100, 0⟩, ⟨0, 1, 150, 100⟩, ⟨0, 2, 80, 250⟩] : List placedref),
            120 ≤ p.globalts) →
          ∃ p ∈ ([⟨0, 0, 100, 0⟩, ⟨0, 1, 150, 100⟩, ⟨0, 2, 80, 250⟩] : List placedref),
            firstvalidglobalts false
                [⟨0, 0, 100, 0⟩, ⟨0, 1, 150, 100⟩, ⟨0, 2, 80, 250⟩] 120 = p.globalts ∧
              120 ≤ p.globalts ∧
              ∀ q ∈ ([⟨0, 0, 100, 0⟩, ⟨0, 1, 150, 100⟩, ⟨0, 2, 80, 250⟩] :
                  List placedref),
                120 ≤ q.globalts → p.globalts ≤ q.globalts) ∧
        ((∀ p ∈ ([⟨0, 0, 100, 0⟩, ⟨0, 1, 150, 100⟩, ⟨0, 2, 80, 250⟩] : List placedref),
            p.globalts < 120) →
          firstvalidglobalts false
              [⟨0, 0, 100, 0⟩, ⟨0, 1, 150, 100⟩, ⟨0, 2, 80, 250⟩] 120
            = (([⟨0, 0, 100, 0⟩, ⟨0, 1, 150, 100⟩, ⟨0, 2, 80, 250⟩] :
                List placedref).getLastD default).globalte)) :=
  ⟨by decide,
    C7_firstvalidglobalts [⟨0, 0, 100, 0⟩, ⟨0, 1, 150, 100⟩, ⟨0, 2, 80, 250⟩] 120
      (by decide) (by decide)⟩

/-! The chunk pager. -/

theorem attemptload_ok_iff (io : Nat → Bool) :
    ∀ (n a : Nat), attemptload io a n = Except.ok () ↔
      ∃ d, d < n ∧ io (a + d) = true := by
  intro n
  induction n with
  | zero =>
    intro a
    constructor
    · intro h; exact Except.noConfusion h
    · intro ⟨d, hd, _⟩; omega
  | succ m ih =>
    intro a
    rw [attemptload]
    by_cases hio : io a = true
    · rw [if_pos hio]
      constructor
      · intro _; exact ⟨0, by omega, by simpa using hio⟩
      · intro _; rfl
    · rw [if_neg hio]
      constructor
      · intro h
        obtain ⟨d, hd, hiod⟩ := (ih (a + 1)).1 h
        refine ⟨d + 1, by omega, ?_⟩
        have : a + (d + 1) = a + 1 + d := by omega
        rw [this]
        exact hiod
      · intro ⟨d, hd, hiod⟩
        cases d with
        | zero => exact absurd (by simpa using hiod) hio
        | succ d2 =>
          apply (ih (a + 1)).2
          refine ⟨d2, by omega, ?_⟩
          have : a + 1 + d2 = a + (d2 + 1) := by omega
          rw [this]
          exact hiod

theorem attemptload_err (io : Nat → Bool) :
    ∀ (n a : Nat), (∀ d, d < n → io (a + d) = false) →
      attemptload io a n = Except.error "requiredata: read failure" := by
  intro n
  induction n with
  | zero => intro a _; rfl
  | succ m ih =>
    intro a h
    rw [attemptload]
    rw [if_neg (by simpa using h 0 (by omega))]
    exact ih (a + 1) (fun d hd => by
      have := h (d + 1) (by omega)
      have he : a + (d + 1) = a + 1 + d := by omega
      rwa [he] at this)

/-- C8: require with a chunk index outside the window is a fatal logic error that loads
nothing; inside the window it returns false without touching the residency state or
the reader when the chunk is resident; otherwise it loads the chunk synchronously,
succeeding and returning true as soon as one of the first five attempts succeeds, and
propagating the failure with nothing loaded when all five attempts fail; release of a
chunk that is not resident is a no-op. -/
theorem C8_pager (ram : List Bool) (io : Nat → Bool) (chunkindex wb we : Nat) :
    ((chunkindex < wb ∨ we ≤ chunkindex) →
      requirerandomizedchunk ram io chunkindex wb we
        = (Except.error
            "requirerandomizedchunk: requested utterance outside in-memory chunk range",
          ram)) ∧
    (wb ≤ chunkindex → chunkindex < we → ram.getD chunkindex false = true →
      requirerandomizedchunk ram io chunkindex wb we = (Except.ok false, ram)) ∧
    (wb ≤ chunkindex → chunkindex < we → ram.getD chunkindex false = false →
      (∃ d, d < 5 ∧ io d = true) →
      requirerandomizedchunk ram io chunkindex wb we
        = (Except.ok true, ram.set chunkindex true)) ∧
    (wb ≤ chunkindex → chunkindex < we → ram.getD chunkindex false = false →
      (∀ d, d < 5 → io d = false) →
      requirerandomizedchunk ram io chunkindex wb we
        = (Except.error "requiredata: read failure", ram)) ∧
    (ram.getD chunkindex false = false →
      releaserandomizedchunk ram chunkindex = ram) := by
  refine ⟨?_, ?_, ?_, ?_, ?_⟩
  · intro hout
    rw [requirerandomizedchunk, if_pos hout]
  · intro hwb hwe hram
    rw [requirerandomizedchunk, if_neg (by omega), hram]
    rfl
  · intro hwb hwe hram hio
    have hok : attemptload io 0 5 = Except.ok () := by
      apply (attemptload_ok_iff io 5 0).2
      obtain ⟨d, hd, hiod⟩ := hio
      exact ⟨d, hd, by simpa using hiod⟩
    rw [requirerandomizedchunk, if_neg (by omega), hram]
    simp only [Bool.false_eq_true, if_false, hok]
  · intro hwb hwe hram hio
    have herr : attemptload io 0 5 = Except.error "requiredata: read failure" :=
      attemptload_err io 5 0 (fun d hd => by simpa using hio d hd)
    rw [requirerandomizedchunk, if_neg (by omega), hram]
    simp only [Bool.false_eq_true, if_false, herr]
  · intro hram
    rw [releaserandomizedchunk, hram]
    rfl

theorem C8_pager_witness :
    (requirerandomizedchunk [false, false] (fun d => decide (d = 1)) 1 0 2
        = (Except.ok true, [false, true]) ∧
      requirerandomizedchunk [false, false] (fun _ => false) 1 0 2
        = (Except.error "requiredata: read failure", [false, false]) ∧
      requirerandomizedchunk [false, true] (fun _ => false) 1 0 2
        = (Except.ok false, [false, true]) ∧
      requirerandomizedchunk [false, true] (fun _ => false) 5 0 2
        = (Except.error
            "requirerandomizedchunk: requested utterance outside in-memory chunk range",
          [false, true]) ∧
      releaserandomizedchunk [false, false] 1 = [false, false]) :=
  ⟨((C8_pager [false, false] (fun d => decide (d = 1)) 1 0 2).2.2.1 (by decide)
      (by decide) (by decide) ⟨1, by decide, by decide⟩).trans (by decide),
    ((C8_pager [false, false] (fun _ => false) 1 0 2).2.2.2.1 (by decide) (by decide)
      (by decide) (fun d _ => rfl)),
    ((C8_pager [false, true] (fun _ => false) 1 0 2).2.1 (by decide) (by decide)
      (by decide)),
    ((C8_pager [false, true] (fun _ => false) 5 0 2).1 (by decide)),
    ((C8_pager [false, false] (fun _ => false) 1 0 2).2.2.2.2 (by decide))⟩

/-! Construction time capacity handling. -/

/-- C9: at construction, an utterance whose frame count exceeds maxframesperutterance is
skipped with a diagnostic and excluded from the corpus, while the remaining utterances
are admitted in order; the condition is not fatal: whenever every utterance has at
least two frames, the admission loop succeeds and returns exactly the utterances
within capacity. -/
theorem C9_capacity_skip (fs : List Nat) (h : ∀ f ∈ fs, 2 ≤ f) :
    buildutteranceset fs
      = Except.ok (fs.filter (fun f => decide (f ≤ maxframesperutterance))) := by
  induction fs with
  | nil => rfl
  | cons f rest ih =>
    have hf := h f (List.mem_cons_self _ _)
    rw [buildutteranceset, if_neg (by omega : ¬ f < 2)]
    by_cases hbig : maxframesperutterance < f
    · rw [if_pos hbig, ih (fun q hq => h q (List.mem_cons_of_mem _ hq))]
      rw [List.filter_cons_of_neg (by simpa using (by omega : ¬ f ≤ maxframesperutterance))]
    · rw [if_neg hbig, ih (fun q hq => h q (List.mem_cons_of_mem _ hq))]
      rw [List.filter_cons_of_pos (by simpa using (by omega : f ≤ maxframesperutterance))]

theorem C9_capacity_skip_witness :
    (∀ f ∈ ([100, 70000, 150] : List Nat), 2 ≤ f) ∧
      buildutteranceset [100, 70000, 150]
          = Except.ok (([100, 70000, 150] : List Nat).filter
              (fun f => decide (f ≤ maxframesperutterance))) ∧
      buildutteranceset [100, 70000, 150] = Except.ok [100, 150] :=
  ⟨by decide, C9_capacity_skip [100, 70000, 150] (by decide), by decide⟩

/-! Atomicity of chunk paging failures. -/

theorem releasedata_ok (numutt : Nat) (x y : chunkcache)
    (h : releasedata numutt x = Except.ok y) : y.isinram = false := by
  unfold releasedata at h
  by_cases h0 : numutt = 0
  · rw [if_pos h0] at h
    exact Except.noConfusion h
  · rw [if_neg h0] at h
    by_cases hx : x.isinram = false
    · rw [if_pos hx] at h
      exact Except.noConfusion h
    · rw [if_neg hx] at h
      have := Except.ok.inj h
      rw [← this]
      rfl

theorem releasedata_err (numutt : Nat) (x : chunkcache) (e2 : String)
    (h0 : ¬ numutt = 0) (h : releasedata numutt x = Except.error e2) :
    x.isinram = false := by
  unfold releasedata at h
  rw [if_neg h0] at h
  by_cases hx : x.isinram = false
  · exact hx
  · rw [if_neg hx] at h
    exact Except.noConfusion h

/-- C10: chunk paging is atomic on failure: when requiredata is called on a chunk that
is not resident and any step of the load fails (feature info, feature read or lattice
fetch), the partially filled cache is released before the error propagates, so the
chunk is not resident afterwards and is never left partially loaded. -/
theorem C10_atomic_failure (numutt featdim : Nat) (getinfo : Except String Nat)
    (readutt : Nat → Except String Nat) (latmode : Bool)
    (getlat : Nat → Except String Nat) (c : chunkcache) (e : String)
    (hc : c.isinram = false)
    (herr : (requiredata numutt featdim getinfo readutt latmode getlat c).1
      = Except.error e) :
    ((requiredata numutt featdim getinfo readutt latmode getlat c).2).isinram
      = false := by
  unfold requiredata at herr ⊢
  by_cases h0 : numutt = 0
  · rw [if_pos h0]
    exact hc
  · rw [if_neg h0] at herr ⊢
    rw [hc] at herr ⊢
    simp only [Bool.false_eq_true, if_false] at herr ⊢
    cases hbody : requiredatabody numutt featdim getinfo readutt latmode getlat c with
    | ok c2 =>
      rw [hbody] at herr
      exact Except.noConfusion herr
    | error ec =>
      dsimp only at herr ⊢
      cases hrel : releasedata numutt ec.2 with
      | ok c3 =>
        exact releasedata_ok numutt ec.2 c3 hrel
      | error e2 =>
        exact releasedata_err numutt ec.2 e2 h0 hrel

theorem C10_atomic_failure_witness :
    ((⟨none, []⟩ : chunkcache).isinram = false) ∧
      ((requiredata 2 0 (Except.ok 10)
          (fun i => if i = 1 then Except.error "disk" else Except.ok 7) false
          (fun _ => Except.ok 0) ⟨none, []⟩).1 = Except.error "disk") ∧
      (((requiredata 2 0 (Except.ok 10)
          (fun i => if i = 1 then Except.error "disk" else Except.ok 7) false
          (fun _ => Except.ok 0) ⟨none, []⟩).2).isinram = false) :=
  ⟨by decide, by decide,
    C10_atomic_failure 2 0 (Except.ok 10)
      (fun i => if i = 1 then Except.error "disk" else Except.ok 7) false
      (fun _ => Except.ok 0) ⟨none, []⟩ "disk" (by decide) (by decide)⟩

end msradbn
